import Mathlib

/-!
Verification of the report-building core of
`alertmanager-silences-slack-reporter` (src/main.rs).

The data model (`Silence`, `Matcher`, `SlackBlock`, `SlackMessage`), the
report builder `format_slack_messages`, the timestamp formatter
`format_timestamp`, and the driver's publish loop are shallowly embedded
below, following the Rust source line by line.  Rust strings are Lean
`String`s; Rust's byte-based string slicing is modelled explicitly via
UTF-8 byte sizes (`byteTake`), with `none` standing for a slicing panic.
Fallible computations (a panic inside the renderer) make the embedded
builder return `Option`.
-/

namespace SilencesReporter

/-- Embeds `struct Matcher` (src/main.rs lines 40-48). -/
structure Matcher where
  name : String
  value : String
  is_regex : Bool
  is_equal : Bool
deriving DecidableEq

/-- Embeds `struct SilenceStatus` (src/main.rs lines 35-38). -/
structure SilenceStatus where
  state : String
deriving DecidableEq

/-- Embeds `struct Silence` (src/main.rs lines 19-33). -/
structure Silence where
  id : String
  status : SilenceStatus
  matchers : List Matcher
  starts_at : String
  ends_at : String
  updated_at : String
  created_by : String
  comment : String
deriving DecidableEq

/-- Embeds `struct SlackText` (src/main.rs lines 66-71). -/
structure SlackText where
  text_type : String
  text : String
deriving DecidableEq

/-- Embeds `enum SlackBlock` (src/main.rs lines 55-64). -/
inductive SlackBlock where
  | Header (text : SlackText)
  | Section (text : SlackText)
  | Divider
deriving DecidableEq

/-- Embeds `struct SlackMessage` (src/main.rs lines 50-53). -/
structure SlackMessage where
  blocks : List SlackBlock
deriving DecidableEq

/-- Core of `format_timestamp` on character lists: replace `T` by a space,
remove every `Z`, and keep only the part before the first `.`
(src/main.rs lines 219-227: `replace("T", " ").replace("Z", "").split('.').next()`). -/
def formatTimestampChars (l : List Char) : List Char :=
  ((l.map (fun c => if c = 'T' then ' ' else c)).filter (fun c => c ≠ 'Z')).takeWhile (fun c => c ≠ '.')

/-- Embeds `fn format_timestamp` (src/main.rs lines 219-227). -/
def format_timestamp (s : String) : String :=
  String.mk (formatTimestampChars s.data)

/-- Total UTF-8 byte length of a character list; models Rust `str::len()`. -/
def utf8Len (l : List Char) : Nat :=
  l.foldl (fun n c => n + c.utf8Size) 0

/-- Models Rust byte slicing `&s[..b]`: take characters worth exactly `b`
bytes; `none` models the panic when `b` is not a character boundary
(or exceeds the string). -/
def byteTake : Nat → List Char → Option (List Char)
  | 0, _ => some []
  | _ + 1, [] => none
  | b + 1, c :: cs =>
    if c.utf8Size ≤ b + 1 then
      (byteTake (b + 1 - c.utf8Size) cs).map (fun l => c :: l)
    else
      none

/-- Embeds the comment-preview computation (src/main.rs lines 195-199):
`if comment.len() > 100 { format!("{}...", &comment[..100]) } else { comment }`.
Note `len()` and `[..100]` are byte-based; `none` models the slicing panic. -/
def commentPreview (comment : String) : Option String :=
  if utf8Len comment.data > 100 then
    (byteTake 100 comment.data).map (fun pre => String.mk pre ++ "...")
  else
    some comment

/-- Embeds the matcher rendering (src/main.rs lines 177-181). -/
def matcherLine (m : Matcher) : String :=
  "  • `" ++ m.name ++ (if m.is_equal then "=" else "!=") ++
    (if m.is_regex then "~" else "") ++ m.value ++ "`"

/-- Embeds the record text before the optional comment line
(src/main.rs lines 185-192). -/
def silenceTextBase (s : Silence) : String :=
  "*Status:* " ++ s.status.state ++
    "\n*Date:* " ++ format_timestamp s.starts_at ++ " → " ++ format_timestamp s.ends_at ++
    "\n*CreatedBy:* " ++ s.created_by ++
    "\n*Matchers:*\n" ++ String.intercalate "\n" (s.matchers.map matcherLine)

/-- Embeds the full record section text, comment line included
(src/main.rs lines 185-201); `none` models the truncation panic. -/
def silenceText (s : Silence) : Option String :=
  if s.comment ≠ "" ∧ s.comment ≠ "-" ∧ s.comment ≠ "." then
    (commentPreview s.comment).map (fun p => silenceTextBase s ++ "\n*Comment:* _" ++ p ++ "_")
  else
    some (silenceTextBase s)

/-- One step of the state-counting loop (src/main.rs lines 118-125); the
triple is `(active_count, expired_count, pending_count)` in declaration
order of the Rust counters. -/
def stateTallyStep (t : Nat × Nat × Nat) (s : Silence) : Nat × Nat × Nat :=
  if s.status.state = "active" then (t.1 + 1, t.2.1, t.2.2)
  else if s.status.state = "expired" then (t.1, t.2.1 + 1, t.2.2)
  else if s.status.state = "pending" then (t.1, t.2.1, t.2.2 + 1)
  else t

/-- Embeds the state-counting loop (src/main.rs lines 114-125). -/
def stateTally (silences : List Silence) : Nat × Nat × Nat :=
  silences.foldl stateTallyStep (0, 0, 0)

/-- Embeds the summary line (src/main.rs lines 154-160). -/
def summaryText (silences : List Silence) : String :=
  "*Total:* " ++ toString silences.length ++
    " | *Active:* " ++ toString (stateTally silences).1 ++
    " | *Pending:* " ++ toString (stateTally silences).2.2 ++
    " | *Expired:* " ++ toString (stateTally silences).2.1

/-- Embeds the header text (src/main.rs lines 139-143). -/
def headerText (total_parts part_num : Nat) : String :=
  if total_parts > 1 then
    "Alertmanager Silences Report (Part " ++ toString (part_num + 1) ++ "/" ++
      toString total_parts ++ ")"
  else
    "Alertmanager Silences Report"

/-- Maps a fallible function over a list, failing if any element fails;
models a Rust loop whose body may panic. -/
def optMap {α β : Type} (f : α → Option β) : List α → Option (List β)
  | [] => some []
  | x :: xs =>
    match f x, optMap f xs with
    | some y, some ys => some (y :: ys)
    | _, _ => none

/-- The two blocks pushed per silence (src/main.rs lines 203-210). -/
def recordBlocks (t : String) : List SlackBlock :=
  [SlackBlock.Section ⟨"mrkdwn", t⟩, SlackBlock.Divider]

/-- Embeds one iteration of the chunk loop (src/main.rs lines 135-213):
the blocks of the message built for chunk number `part_num`. -/
def messageForChunk (silences : List Silence) (total_parts part_num : Nat)
    (chunk : List Silence) : Option SlackMessage :=
  match optMap silenceText chunk with
  | some ts =>
    some ⟨SlackBlock.Header ⟨"plain_text", headerText total_parts part_num⟩ ::
      ((if part_num = 0 then [SlackBlock.Section ⟨"mrkdwn", summaryText silences⟩] else []) ++
        SlackBlock.Divider :: (ts.map recordBlocks).flatten)⟩
  | none => none

/-- Embeds the chunk loop of `format_slack_messages` (src/main.rs
lines 135-214), carrying `part_num` like the `enumerate()` counter. -/
def buildMessages (silences : List Silence) (total_parts : Nat) :
    Nat → List (List Silence) → Option (List SlackMessage)
  | _, [] => some []
  | part_num, c :: cs =>
    match messageForChunk silences total_parts part_num c,
          buildMessages silences total_parts (part_num + 1) cs with
    | some m, some ms => some (m :: ms)
    | _, _ => none

/-- Embeds `const MAX_SILENCES_PER_MESSAGE: usize = 23` (src/main.rs line 110). -/
def MAX_SILENCES_PER_MESSAGE : Nat := 23

/-- Fuel-driven worker for `chunksOf`; the fuel only forces structural
recursion and never runs out when it starts at the list length. -/
def chunksOfF {α : Type} (n : Nat) : Nat → List α → List (List α)
  | _, [] => []
  | 0, _ :: _ => []
  | fuel + 1, x :: xs => (x :: xs.take (n - 1)) :: chunksOfF n fuel (xs.drop (n - 1))

/-- Models `slice::chunks(n)` for `n ≥ 1`: consecutive chunks of at most
`n` elements, in order (src/main.rs line 131). -/
def chunksOf {α : Type} (n : Nat) (l : List α) : List (List α) :=
  chunksOfF n l.length l

/-- The chunk list of `format_slack_messages` (src/main.rs lines 128-132):
one empty chunk for an empty input, else chunks of at most 23 silences. -/
def fmChunks (silences : List Silence) : List (List Silence) :=
  if silences = [] then [([] : List Silence)]
  else chunksOf MAX_SILENCES_PER_MESSAGE silences

/-- Embeds `fn format_slack_messages` (src/main.rs lines 105-217);
`none` models a panic inside the comment truncation. -/
def format_slack_messages (silences : List Silence) : Option (List SlackMessage) :=
  buildMessages silences (fmChunks silences).length 0 (fmChunks silences)

/-- Slack's per-message block limit referred to by the comment at
src/main.rs line 106 (`BLOCK_LIMIT` in the specification). -/
def BLOCK_LIMIT : Nat := 50

/-- Spec-side count of records whose state is exactly `"active"`. -/
def activeCount (l : List Silence) : Nat :=
  (l.filter (fun s => s.status.state = "active")).length

/-- Spec-side count of records whose state is exactly `"pending"`. -/
def pendingCount (l : List Silence) : Nat :=
  (l.filter (fun s => s.status.state = "pending")).length

/-- Spec-side count of records whose state is exactly `"expired"`. -/
def expiredCount (l : List Silence) : Nat :=
  (l.filter (fun s => s.status.state = "expired")).length

/-- Projects a Section block to its text. -/
def secProj : SlackBlock → Option String
  | SlackBlock.Section t => some t.text
  | _ => none

/-- The texts of the Section blocks of a message, in block order. -/
def sectionTexts (m : SlackMessage) : List String :=
  m.blocks.filterMap secProj

/-- Recognizes a Header block. -/
def isHeaderBlock : SlackBlock → Bool
  | SlackBlock.Header _ => true
  | _ => false

/-- Recognizes a Divider block. -/
def isDividerBlock : SlackBlock → Bool
  | SlackBlock.Divider => true
  | _ => false

/-- Embeds the publish loop of `main` (src/main.rs lines 283-291): batches
are sent one at a time in order and the `?` operator aborts the run on the
first `send_to_slack` error.  Returns the indices of the successfully
published batches and, on failure, the failing index with its error. -/
def publishRun {ε : Type} (send : SlackMessage → Except ε Unit) :
    Nat → List SlackMessage → List Nat × Option (Nat × ε)
  | _, [] => ([], none)
  | i, m :: rest =>
    match send m with
    | Except.ok _ =>
      let r := publishRun send (i + 1) rest
      (i :: r.1, r.2)
    | Except.error e => ([], some (i, e))

/-- The single message produced for an empty silence list. -/
def emptyReportMessage : SlackMessage :=
  ⟨[SlackBlock.Header ⟨"plain_text", "Alertmanager Silences Report"⟩,
    SlackBlock.Section ⟨"mrkdwn", "*Total:* 0 | *Active:* 0 | *Pending:* 0 | *Expired:* 0"⟩,
    SlackBlock.Divider]⟩

/-- A comment of 100 characters and 101 bytes: 99 ASCII characters followed
by a two-byte character, so byte offset 100 falls inside the last character. -/
def panickingComment : String := String.mk (List.replicate 99 'a' ++ ['é'])

/-- A silence whose comment makes the byte-based truncation panic. -/
def panicSilence : Silence :=
  ⟨"silence-1", ⟨"active"⟩, [], "2024-01-01T00:00:00Z", "2024-01-02T00:00:00Z",
    "2024-01-01T00:00:00Z", "user", panickingComment⟩

/-- A comment of exactly 100 characters, all two bytes wide (200 bytes). -/
def hundredWideComment : String := String.mk (List.replicate 100 'é')

/-- A silence whose comment is the sentinel value `"-"`. -/
def dashCommentSilence : Silence :=
  ⟨"silence-2", ⟨"expired"⟩, [], "", "", "", "user", "-"⟩

/-- The summary line exactly as claimed, without mrkdwn bold markers. -/
def claimedSummaryLine : String := "Total: 0 | Active: 0 | Pending: 0 | Expired: 0"

/-- Boolean list-prefix test. -/
def leadsWith : List Char → List Char → Bool
  | [], _ => true
  | _ :: _, [] => false
  | a :: as, b :: bs => a == b && leadsWith as bs

/-- Boolean substring test on character lists. -/
def hasSub (needle : List Char) : List Char → Bool
  | [] => needle.isEmpty
  | c :: cs => leadsWith needle (c :: cs) || hasSub needle cs

/-- Holds when no Section block of the message contains the plain
(bold-marker-free) summary line as a substring. -/
def claimSummaryAbsent (m : SlackMessage) : Bool :=
  m.blocks.all (fun b => match b with
    | SlackBlock.Section t => !(hasSub claimedSummaryLine.data t.text.data)
    | _ => true)

/-- A publish oracle that fails exactly on messages with no blocks. -/
def sampleSend : SlackMessage → Except Nat Unit :=
  fun m => if m.blocks.length = 0 then Except.error 7 else Except.ok ()

/-- Three batches whose middle one makes `sampleSend` fail. -/
def sampleBatches : List SlackMessage :=
  [emptyReportMessage, ⟨[]⟩, emptyReportMessage]

/-! ### Helper lemmas: chunking -/

theorem chunksOfF_flatten {α : Type} (n : Nat) :
    ∀ (fuel : Nat) (l : List α), l.length ≤ fuel → (chunksOfF n fuel l).flatten = l := by
  intro fuel
  induction fuel with
  | zero =>
    intro l hl
    cases l with
    | nil => rfl
    | cons x xs => simp at hl
  | succ f ih =>
    intro l hl
    cases l with
    | nil => rfl
    | cons x xs =>
      simp only [chunksOfF, List.flatten_cons]
      rw [ih (xs.drop (n - 1)) (by simp only [List.length_drop]; simp at hl; omega)]
      simp [List.take_append_drop]

theorem chunksOf_flatten {α : Type} (n : Nat) (l : List α) :
    (chunksOf n l).flatten = l :=
  chunksOfF_flatten n l.length l (Nat.le_refl _)

theorem chunksOfF_length {α : Type} (n : Nat) :
    ∀ (fuel : Nat) (l : List α), l.length ≤ fuel →
      (chunksOfF (n + 1) fuel l).length = (l.length + n) / (n + 1) := by
  intro fuel
  induction fuel with
  | zero =>
    intro l hl
    cases l with
    | nil => simp [chunksOfF, Nat.div_eq_of_lt (Nat.lt_succ_of_le (Nat.le_refl n))]
    | cons x xs => simp at hl
  | succ f ih =>
    intro l hl
    cases l with
    | nil => simp [chunksOfF, Nat.div_eq_of_lt (Nat.lt_succ_of_le (Nat.le_refl n))]
    | cons x xs =>
      simp only [chunksOfF, Nat.add_sub_cancel, List.length_cons]
      have hxs : xs.length ≤ f := by simp at hl; omega
      rw [ih (xs.drop n) (by simp only [List.length_drop]; omega), List.length_drop]
      rcases le_or_lt xs.length n with hle | hlt
      · rw [Nat.sub_eq_zero_of_le hle]
        rw [show 0 + n = n by omega, Nat.div_eq_of_lt (by omega : n < n + 1)]
        rw [show xs.length + 1 + n = xs.length + (n + 1) by omega,
          Nat.add_div_right _ (Nat.succ_pos n),
          Nat.div_eq_of_lt (by omega : xs.length < n + 1)]
      · rw [show xs.length - n + n = xs.length by omega,
          show xs.length + 1 + n = xs.length + (n + 1) by omega,
          Nat.add_div_right _ (Nat.succ_pos n)]

theorem chunksOf_length {α : Type} (n : Nat) (l : List α) :
    (chunksOf (n + 1) l).length = (l.length + n) / (n + 1) :=
  chunksOfF_length n l.length l (Nat.le_refl _)

theorem chunksOfF_mem_length {α : Type} (n : Nat) :
    ∀ (fuel : Nat) (l : List α), ∀ c ∈ chunksOfF (n + 1) fuel l, c.length ≤ n + 1 ∧ c ≠ [] := by
  intro fuel
  induction fuel with
  | zero =>
    intro l c hc
    cases l with
    | nil => simp [chunksOfF] at hc
    | cons x xs => simp [chunksOfF] at hc
  | succ f ih =>
    intro l c hc
    cases l with
    | nil => simp [chunksOfF] at hc
    | cons x xs =>
      simp only [chunksOfF, Nat.add_sub_cancel, List.mem_cons] at hc
      rcases hc with rfl | hc
      · refine ⟨?_, by simp⟩
        simp only [List.length_cons, List.length_take]
        omega
      · exact ih (xs.drop n) c hc

theorem chunksOf_mem_length {α : Type} (n : Nat) (l : List α) :
    ∀ c ∈ chunksOf (n + 1) l, c.length ≤ n + 1 ∧ c ≠ [] :=
  chunksOfF_mem_length n l.length l

/-! ### Helper lemmas: `optMap` -/

theorem optMap_length {α β : Type} (f : α → Option β) :
    ∀ (l : List α) (ys : List β), optMap f l = some ys → ys.length = l.length := by
  intro l
  induction l with
  | nil => intro ys h; simp [optMap] at h; simp [← h]
  | cons x xs ih =>
    intro ys h
    simp only [optMap] at h
    cases hx : f x with
    | none => rw [hx] at h; exact absurd h (by simp)
    | some y =>
      rw [hx] at h
      cases hxs : optMap f xs with
      | none => rw [hxs] at h; exact absurd h (by simp)
      | some ys' =>
        rw [hxs] at h
        simp only [Option.some.injEq] at h
        subst h
        simp [ih ys' hxs]

theorem optMap_append {α β : Type} (f : α → Option β) :
    ∀ (l₁ l₂ : List α) (y₁ y₂ : List β),
      optMap f l₁ = some y₁ → optMap f l₂ = some y₂ →
      optMap f (l₁ ++ l₂) = some (y₁ ++ y₂) := by
  intro l₁
  induction l₁ with
  | nil =>
    intro l₂ y₁ y₂ h1 h2
    simp only [optMap] at h1
    simp only [Option.some.injEq] at h1
    subst h1
    simpa using h2
  | cons x xs ih =>
    intro l₂ y₁ y₂ h1 h2
    simp only [List.cons_append, optMap] at h1 ⊢
    cases hx : f x with
    | none => rw [hx] at h1; exact absurd h1 (by simp)
    | some y =>
      rw [hx] at h1
      cases hxs : optMap f xs with
      | none => rw [hxs] at h1; exact absurd h1 (by simp)
      | some ys' =>
        rw [hxs] at h1
        simp only [Option.some.injEq] at h1
        subst h1
        rw [show xs.append l₂ = xs ++ l₂ from rfl, ih l₂ ys' y₂ hxs h2]
        rfl

theorem optMap_mem {α β : Type} (f : α → Option β) :
    ∀ (l : List α) (ys : List β), optMap f l = some ys →
      ∀ y ∈ ys, ∃ x ∈ l, f x = some y := by
  intro l
  induction l with
  | nil =>
    intro ys h
    simp only [optMap, Option.some.injEq] at h
    subst h
    intro y hy
    simp at hy
  | cons x xs ih =>
    intro ys h
    simp only [optMap] at h
    cases hx : f x with
    | none => rw [hx] at h; exact absurd h (by simp)
    | some y =>
      rw [hx] at h
      cases hxs : optMap f xs with
      | none => rw [hxs] at h; exact absurd h (by simp)
      | some ys' =>
        rw [hxs] at h
        simp only [Option.some.injEq] at h
        subst h
        intro z hz
        rcases List.mem_cons.mp hz with rfl | hz'
        · exact ⟨x, List.mem_cons_self x xs, hx⟩
        · obtain ⟨x', hx', hfx'⟩ := ih ys' hxs z hz'
          exact ⟨x', List.mem_cons_of_mem x hx', hfx'⟩

/-! ### Helper lemmas: the chunk loop -/

theorem buildMessages_length (silences : List Silence) (tp : Nat) :
    ∀ (chks : List (List Silence)) (k : Nat) (ms : List SlackMessage),
      buildMessages silences tp k chks = some ms → ms.length = chks.length := by
  intro chks
  induction chks with
  | nil =>
    intro k ms h
    simp only [buildMessages, Option.some.injEq] at h
    subst h
    rfl
  | cons c cs ih =>
    intro k ms h
    simp only [buildMessages] at h
    cases hm : messageForChunk silences tp k c with
    | none => rw [hm] at h; exact absurd h (by simp)
    | some m =>
      rw [hm] at h
      cases hms : buildMessages silences tp (k + 1) cs with
      | none => rw [hms] at h; exact absurd h (by simp)
      | some ms' =>
        rw [hms] at h
        simp only [Option.some.injEq] at h
        subst h
        simp [ih (k + 1) ms' hms]

theorem buildMessages_get (silences : List Silence) (tp : Nat) :
    ∀ (chks : List (List Silence)) (k : Nat) (ms : List SlackMessage),
      buildMessages silences tp k chks = some ms →
      ∀ (j : Nat) (hj : j < chks.length) (hj' : j < ms.length),
        messageForChunk silences tp (k + j) (chks.get ⟨j, hj⟩) = some (ms.get ⟨j, hj'⟩) := by
  intro chks
  induction chks with
  | nil =>
    intro k ms h j hj
    simp at hj
  | cons c cs ih =>
    intro k ms h j hj hj'
    simp only [buildMessages] at h
    cases hm : messageForChunk silences tp k c with
    | none => rw [hm] at h; exact absurd h (by simp)
    | some m =>
      rw [hm] at h
      cases hms : buildMessages silences tp (k + 1) cs with
      | none => rw [hms] at h; exact absurd h (by simp)
      | some ms' =>
        rw [hms] at h
        simp only [Option.some.injEq] at h
        subst h
        cases j with
        | zero => simpa using hm
        | succ j' =>
          have hj2 : j' < cs.length := by simpa using hj
          have hj2' : j' < ms'.length := by simpa using hj'
          have h2 := ih (k + 1) ms' hms j' hj2 hj2'
          rw [show k + (j' + 1) = k + 1 + j' by omega]
          exact h2

theorem buildMessages_mem (silences : List Silence) (tp : Nat) :
    ∀ (chks : List (List Silence)) (k : Nat) (ms : List SlackMessage),
      buildMessages silences tp k chks = some ms →
      ∀ m ∈ ms, ∃ i c, k ≤ i ∧ c ∈ chks ∧ messageForChunk silences tp i c = some m := by
  intro chks
  induction chks with
  | nil =>
    intro k ms h m hm
    simp only [buildMessages, Option.some.injEq] at h
    subst h
    simp at hm
  | cons c cs ih =>
    intro k ms h m hmem
    simp only [buildMessages] at h
    cases hm : messageForChunk silences tp k c with
    | none => rw [hm] at h; exact absurd h (by simp)
    | some m₀ =>
      rw [hm] at h
      cases hms : buildMessages silences tp (k + 1) cs with
      | none => rw [hms] at h; exact absurd h (by simp)
      | some ms' =>
        rw [hms] at h
        simp only [Option.some.injEq] at h
        subst h
        rcases List.mem_cons.mp hmem with rfl | hmem'
        · exact ⟨k, c, Nat.le_refl k, List.mem_cons_self c cs, hm⟩
        · obtain ⟨i, c', hi, hc', hmc⟩ := ih (k + 1) ms' hms m hmem'
          exact ⟨i, c', by omega, List.mem_cons_of_mem c hc', hmc⟩

theorem messageForChunk_inv (silences : List Silence) (tp i : Nat) (c : List Silence)
    (m : SlackMessage) (h : messageForChunk silences tp i c = some m) :
    ∃ ts, optMap silenceText c = some ts ∧
      m.blocks = SlackBlock.Header ⟨"plain_text", headerText tp i⟩ ::
        ((if i = 0 then [SlackBlock.Section ⟨"mrkdwn", summaryText silences⟩] else []) ++
          SlackBlock.Divider :: (ts.map recordBlocks).flatten) := by
  unfold messageForChunk at h
  cases hts : optMap silenceText c with
  | none => rw [hts] at h; exact absurd h (by simp)
  | some ts =>
    rw [hts] at h
    simp only [Option.some.injEq] at h
    exact ⟨ts, rfl, by rw [← h]⟩

theorem recordFlatten_filterMap (ts : List String) :
    ((ts.map recordBlocks).flatten).filterMap secProj = ts := by
  induction ts with
  | nil => rfl
  | cons t ts ih =>
    rw [List.map_cons, List.flatten_cons, List.filterMap_append, ih]
    rfl

theorem recordFlatten_countP_header (ts : List String) :
    ((ts.map recordBlocks).flatten).countP isHeaderBlock = 0 := by
  induction ts with
  | nil => rfl
  | cons t ts ih => simp [recordBlocks, List.countP_cons, isHeaderBlock, ih]

theorem recordFlatten_length (ts : List String) :
    ((ts.map recordBlocks).flatten).length = 2 * ts.length := by
  induction ts with
  | nil => rfl
  | cons t ts ih =>
    simp only [List.map_cons, List.flatten_cons, List.length_append, ih, recordBlocks]
    simp [Nat.mul_add, Nat.mul_succ]
    omega

theorem recordFlatten_mem (ts : List String) (b : SlackBlock)
    (hb : b ∈ (ts.map recordBlocks).flatten) :
    (∃ t ∈ ts, b = SlackBlock.Section ⟨"mrkdwn", t⟩) ∨ b = SlackBlock.Divider := by
  induction ts with
  | nil => simp at hb
  | cons t ts ih =>
    simp only [List.map_cons, List.flatten_cons, List.mem_append, recordBlocks] at hb
    rcases hb with hb | hb
    · simp only [List.mem_cons, List.not_mem_nil, or_false] at hb
      rcases hb with rfl | rfl
      · exact Or.inl ⟨t, List.mem_cons_self t ts, rfl⟩
      · exact Or.inr rfl
    · rcases ih hb with ⟨t', ht', rfl⟩ | rfl
      · exact Or.inl ⟨t', List.mem_cons_of_mem t ht', rfl⟩
      · exact Or.inr rfl

theorem sectionTexts_messageForChunk (silences : List Silence) (tp i : Nat)
    (c : List Silence) (m : SlackMessage) (ts : List String)
    (h : messageForChunk silences tp i c = some m)
    (hts : optMap silenceText c = some ts) :
    sectionTexts m = (if i = 0 then [summaryText silences] else []) ++ ts := by
  obtain ⟨ts', hts', hblocks⟩ := messageForChunk_inv silences tp i c m h
  rw [hts] at hts'
  simp only [Option.some.injEq] at hts'
  subst hts'
  unfold sectionTexts
  by_cases hi : i = 0
  · have hstep : ∀ R : List SlackBlock,
        List.filterMap secProj (SlackBlock.Header ⟨"plain_text", headerText tp i⟩ ::
          ([SlackBlock.Section ⟨"mrkdwn", summaryText silences⟩] ++ SlackBlock.Divider :: R)) =
          summaryText silences :: List.filterMap secProj R := fun R => rfl
    rw [hblocks, if_pos hi, hstep, recordFlatten_filterMap, if_pos hi]
    rfl
  · have hstep : ∀ R : List SlackBlock,
        List.filterMap secProj (SlackBlock.Header ⟨"plain_text", headerText tp i⟩ ::
          (([] : List SlackBlock) ++ SlackBlock.Divider :: R)) =
          List.filterMap secProj R := fun R => rfl
    rw [hblocks, if_neg hi, hstep, recordFlatten_filterMap, if_neg hi]
    rfl

/-! ### Helper lemmas: state counting -/

theorem stateTally_foldl_eq (l : List Silence) :
    ∀ t : Nat × Nat × Nat, l.foldl stateTallyStep t =
      (t.1 + activeCount l, t.2.1 + expiredCount l, t.2.2 + pendingCount l) := by
  induction l with
  | nil => intro t; simp [activeCount, pendingCount, expiredCount]
  | cons x xs ih =>
    intro t
    rw [List.foldl_cons, ih]
    unfold stateTallyStep activeCount pendingCount expiredCount
    by_cases h1 : x.status.state = "active"
    · simp [List.filter_cons, h1]
      omega
    · by_cases h2 : x.status.state = "expired"
      · simp [List.filter_cons, h1, h2]
        omega
      · by_cases h3 : x.status.state = "pending"
        · simp [List.filter_cons, h1, h2, h3]
          omega
        · simp [List.filter_cons, h1, h2, h3]

theorem stateTally_eq (l : List Silence) :
    stateTally l = (activeCount l, expiredCount l, pendingCount l) := by
  unfold stateTally
  rw [stateTally_foldl_eq]
  simp

theorem count_cons_helper (p : Silence → Bool) (x : Silence) (xs : List Silence) :
    (List.filter p (x :: xs)).length =
      (List.filter p xs).length + (if p x = true then 1 else 0) := by
  rw [← List.countP_eq_length_filter, ← List.countP_eq_length_filter, List.countP_cons]

theorem counts_le_and_iff (l : List Silence) :
    activeCount l + pendingCount l + expiredCount l ≤ l.length ∧
    (activeCount l + pendingCount l + expiredCount l = l.length ↔
      ∀ s ∈ l, s.status.state = "active" ∨ s.status.state = "pending" ∨
        s.status.state = "expired") := by
  induction l with
  | nil => simp [activeCount, pendingCount, expiredCount]
  | cons x xs ih =>
    obtain ⟨ihle, ihiff⟩ := ih
    have ha := count_cons_helper (fun s => decide (s.status.state = "active")) x xs
    have hp := count_cons_helper (fun s => decide (s.status.state = "pending")) x xs
    have he := count_cons_helper (fun s => decide (s.status.state = "expired")) x xs
    unfold activeCount pendingCount expiredCount at ihle ihiff ⊢
    rw [ha, hp, he, List.length_cons]
    by_cases h1 : x.status.state = "active"
    · rw [if_pos (by simp [h1]), if_neg (by simp [h1]), if_neg (by simp [h1])]
      refine ⟨by omega, ?_, ?_⟩
      · intro heq s hs
        rcases List.mem_cons.mp hs with rfl | hs'
        · exact Or.inl h1
        · exact ihiff.mp (by omega) s hs'
      · intro hall
        have hx := ihiff.mpr (fun s hs => hall s (List.mem_cons_of_mem x hs))
        omega
    · by_cases h2 : x.status.state = "pending"
      · rw [if_neg (by simp [h2]), if_pos (by simp [h2]), if_neg (by simp [h2])]
        refine ⟨by omega, ?_, ?_⟩
        · intro heq s hs
          rcases List.mem_cons.mp hs with rfl | hs'
          · exact Or.inr (Or.inl h2)
          · exact ihiff.mp (by omega) s hs'
        · intro hall
          have hx := ihiff.mpr (fun s hs => hall s (List.mem_cons_of_mem x hs))
          omega
      · by_cases h3 : x.status.state = "expired"
        · rw [if_neg (by simp [h3]), if_neg (by simp [h3]), if_pos (by simp [h3])]
          refine ⟨by omega, ?_, ?_⟩
          · intro heq s hs
            rcases List.mem_cons.mp hs with rfl | hs'
            · exact Or.inr (Or.inr h3)
            · exact ihiff.mp (by omega) s hs'
          · intro hall
            have hx := ihiff.mpr (fun s hs => hall s (List.mem_cons_of_mem x hs))
            omega
        · rw [if_neg (by simp [h1]), if_neg (by simp [h2]), if_neg (by simp [h3])]
          refine ⟨by omega, ?_, ?_⟩
          · intro heq
            exact absurd heq (by omega)
          · intro hall
            rcases hall x (List.mem_cons_self x xs) with hx | hx | hx
            · exact absurd hx h1
            · exact absurd hx h2
            · exact absurd hx h3

/-! ### Helper lemmas: strings -/

theorem stringExt {s t : String} (h : s.data = t.data) : s = t := by
  cases s
  cases t
  simp only at h
  rw [h]

theorem head2_append (a b : String) (c₁ c₂ : Char)
    (h : ∃ r, a.data = c₁ :: c₂ :: r) : ∃ r, (a ++ b).data = c₁ :: c₂ :: r := by
  obtain ⟨r, hr⟩ := h
  exact ⟨r ++ b.data, by rw [String.data_append, hr]; rfl⟩

theorem summaryText_head (l : List Silence) :
    ∃ r, (summaryText l).data = '*' :: 'T' :: r := by
  unfold summaryText
  repeat apply head2_append
  exact ⟨"otal:* ".data, rfl⟩

theorem silenceTextBase_head (s : Silence) :
    ∃ r, (silenceTextBase s).data = '*' :: 'S' :: r := by
  unfold silenceTextBase
  repeat apply head2_append
  exact ⟨"tatus:* ".data, rfl⟩

theorem silenceText_head (s : Silence) (t : String) (h : silenceText s = some t) :
    ∃ r, t.data = '*' :: 'S' :: r := by
  unfold silenceText at h
  by_cases hc : s.comment ≠ "" ∧ s.comment ≠ "-" ∧ s.comment ≠ "."
  · rw [if_pos hc] at h
    cases hp : commentPreview s.comment with
    | none => rw [hp] at h; exact absurd h (by simp)
    | some p =>
      rw [hp] at h
      simp only [Option.map_some', Option.some.injEq] at h
      subst h
      repeat apply head2_append
      exact ⟨"tatus:* ".data, rfl⟩
  · rw [if_neg hc] at h
    simp only [Option.some.injEq] at h
    subst h
    exact silenceTextBase_head s

theorem record_ne_summary (s : Silence) (l : List Silence) (t : String)
    (h : silenceText s = some t) : t ≠ summaryText l := by
  intro heq
  obtain ⟨r₁, hr₁⟩ := silenceText_head s t h
  obtain ⟨r₂, hr₂⟩ := summaryText_head l
  rw [heq, hr₂] at hr₁
  have h2 := congrArg (fun l => l.tail.head?) hr₁
  simp at h2

/-! ### Helper lemmas: timestamp formatting -/

theorem map_self {α : Type} (f : α → α) :
    ∀ l : List α, (∀ c ∈ l, f c = c) → l.map f = l := by
  intro l
  induction l with
  | nil => intro _; rfl
  | cons x xs ih =>
    intro h
    rw [List.map_cons, h x (List.mem_cons_self x xs),
      ih (fun c hc => h c (List.mem_cons_of_mem x hc))]

theorem filter_self {α : Type} (p : α → Bool) :
    ∀ l : List α, (∀ c ∈ l, p c = true) → l.filter p = l := by
  intro l
  induction l with
  | nil => intro _; rfl
  | cons x xs ih =>
    intro h
    rw [List.filter_cons, if_pos (h x (List.mem_cons_self x xs)),
      ih (fun c hc => h c (List.mem_cons_of_mem x hc))]

theorem takeWhile_append_all {α : Type} (p : α → Bool) :
    ∀ l₁ l₂ : List α, (∀ c ∈ l₁, p c = true) →
      (l₁ ++ l₂).takeWhile p = l₁ ++ l₂.takeWhile p := by
  intro l₁
  induction l₁ with
  | nil => intro l₂ _; rfl
  | cons x xs ih =>
    intro l₂ h
    rw [List.cons_append, List.takeWhile_cons, if_pos (h x (List.mem_cons_self x xs)),
      ih l₂ (fun c hc => h c (List.mem_cons_of_mem x hc)), List.cons_append]

theorem mem_takeWhile_pred {α : Type} (p : α → Bool) :
    ∀ (l : List α) (a : α), a ∈ l.takeWhile p → p a = true := by
  intro l
  induction l with
  | nil => intro a ha; simp at ha
  | cons x xs ih =>
    intro a ha
    rw [List.takeWhile_cons] at ha
    by_cases hp : p x = true
    · rw [if_pos hp] at ha
      rcases List.mem_cons.mp ha with rfl | ha'
      · exact hp
      · exact ih a ha'
    · rw [if_neg hp] at ha
      simp at ha

theorem formatTimestampChars_eq (l : List Char) :
    formatTimestampChars l =
      ((l.takeWhile (fun c => c ≠ '.')).map (fun c => if c = 'T' then ' ' else c)).filter
        (fun c => c ≠ 'Z') := by
  induction l with
  | nil => rfl
  | cons c cs ih =>
    unfold formatTimestampChars at ih ⊢
    by_cases hd : c = '.'
    · subst hd
      simp [List.filter_cons, List.takeWhile_cons]
    · by_cases hz : c = 'Z'
      · subst hz
        simpa [List.filter_cons, List.takeWhile_cons] using ih
      · by_cases ht : c = 'T'
        · subst ht
          simpa [List.filter_cons, List.takeWhile_cons, ih] using ih
        · simp [List.filter_cons, List.takeWhile_cons, hd, hz, ht]
          simpa using ih

theorem formatTimestampChars_no_specials (l : List Char) :
    'T' ∉ formatTimestampChars l ∧ 'Z' ∉ formatTimestampChars l ∧
      '.' ∉ formatTimestampChars l := by
  rw [formatTimestampChars_eq]
  refine ⟨?_, ?_, ?_⟩
  · intro h
    obtain ⟨c, _, hc⟩ := List.mem_map.mp (List.mem_of_mem_filter h)
    by_cases hT : c = 'T'
    · rw [if_pos hT] at hc
      exact absurd hc (by decide)
    · rw [if_neg hT] at hc
      exact hT hc
  · intro h
    have := List.of_mem_filter h
    simp at this
  · intro h
    obtain ⟨c, hcmem, hc⟩ := List.mem_map.mp (List.mem_of_mem_filter h)
    have hpred := mem_takeWhile_pred _ _ _ hcmem
    by_cases hT : c = 'T'
    · rw [if_pos hT] at hc
      exact absurd hc (by decide)
    · rw [if_neg hT] at hc
      subst hc
      simp at hpred

theorem isDigit_ne (c : Char) (hc : c.isDigit = true) (d : Char)
    (hd : d.isDigit = false) : c ≠ d := by
  intro h
  rw [h] at hc
  rw [hc] at hd
  exact absurd hd (by simp)

theorem fmtChars_append_clean (l₁ l₂ : List Char)
    (h : ∀ c ∈ l₁, c ≠ 'T' ∧ c ≠ 'Z' ∧ c ≠ '.') :
    formatTimestampChars (l₁ ++ l₂) = l₁ ++ formatTimestampChars l₂ := by
  unfold formatTimestampChars
  rw [List.map_append, map_self _ l₁ (fun c hc => if_neg (h c hc).1),
    List.filter_append, filter_self _ l₁ (fun c hc => by simp [(h c hc).2.1]),
    takeWhile_append_all _ l₁ _ (fun c hc => by simp [(h c hc).2.2])]

theorem formatTimestampChars_wellformed (D T' F : List Char)
    (hD : ∀ c ∈ D, c.isDigit ∨ c = '-')
    (hT : ∀ c ∈ T', c.isDigit ∨ c = ':')
    (hF : F = [] ∨ ∃ fs, F = '.' :: fs) :
    formatTimestampChars (D ++ 'T' :: (T' ++ (F ++ ['Z']))) = D ++ ' ' :: T' := by
  have hDclean : ∀ c ∈ D, c ≠ 'T' ∧ c ≠ 'Z' ∧ c ≠ '.' := by
    intro c hc
    rcases hD c hc with h | h
    · exact ⟨isDigit_ne c h 'T' (by decide), isDigit_ne c h 'Z' (by decide),
        isDigit_ne c h '.' (by decide)⟩
    · subst h; refine ⟨by decide, by decide, by decide⟩
  have hTclean : ∀ c ∈ T', c ≠ 'T' ∧ c ≠ 'Z' ∧ c ≠ '.' := by
    intro c hc
    rcases hT c hc with h | h
    · exact ⟨isDigit_ne c h 'T' (by decide), isDigit_ne c h 'Z' (by decide),
        isDigit_ne c h '.' (by decide)⟩
    · subst h; refine ⟨by decide, by decide, by decide⟩
  rw [fmtChars_append_clean D _ hDclean]
  have hstep : formatTimestampChars ('T' :: (T' ++ (F ++ ['Z']))) =
      ' ' :: formatTimestampChars (T' ++ (F ++ ['Z'])) := rfl
  rw [hstep, fmtChars_append_clean T' _ hTclean]
  rcases hF with rfl | ⟨fs, rfl⟩
  · have : formatTimestampChars ([] ++ ['Z']) = [] := rfl
    rw [this, List.append_nil]
  · have : formatTimestampChars ('.' :: fs ++ ['Z']) = [] := rfl
    rw [show ('.' :: fs ++ ['Z'] : List Char) = '.' :: fs ++ ['Z'] from rfl] at this
    rw [this, List.append_nil]

/-! ### Helper lemmas: the chunk list of the builder -/

theorem fmChunks_ne_nil (silences : List Silence) : fmChunks silences ≠ [] := by
  unfold fmChunks
  by_cases h : silences = []
  · rw [if_pos h]; simp
  · rw [if_neg h]
    cases silences with
    | nil => exact absurd rfl h
    | cons x xs => simp [chunksOf, chunksOfF]

theorem fmChunks_flatten (silences : List Silence) :
    (fmChunks silences).flatten = silences := by
  unfold fmChunks
  by_cases h : silences = []
  · rw [if_pos h, h]; rfl
  · rw [if_neg h, chunksOf_flatten]

theorem fmChunks_mem_length (silences : List Silence) :
    ∀ c ∈ fmChunks silences, c.length ≤ MAX_SILENCES_PER_MESSAGE := by
  unfold fmChunks
  by_cases h : silences = []
  · rw [if_pos h]
    intro c hc
    simp only [List.mem_singleton] at hc
    subst hc
    simp [MAX_SILENCES_PER_MESSAGE]
  · rw [if_neg h]
    intro c hc
    have := chunksOf_mem_length 22 silences c (by
      rw [show (22 + 1 : Nat) = MAX_SILENCES_PER_MESSAGE from rfl]
      exact hc)
    rw [show (22 + 1 : Nat) = MAX_SILENCES_PER_MESSAGE from rfl] at this
    exact this.1

theorem fmChunks_length (silences : List Silence) :
    (fmChunks silences).length =
      max 1 ((silences.length + (MAX_SILENCES_PER_MESSAGE - 1)) / MAX_SILENCES_PER_MESSAGE) := by
  unfold fmChunks
  by_cases h : silences = []
  · subst h
    rfl
  · rw [if_neg h]
    rw [show MAX_SILENCES_PER_MESSAGE = 22 + 1 from rfl, chunksOf_length 22 silences]
    have hpos : 1 ≤ silences.length := List.length_pos.mpr h
    have h1 : 1 ≤ (silences.length + 22) / (22 + 1) :=
      (Nat.one_le_div_iff (by omega)).mpr (by omega)
    rw [Nat.max_eq_right h1]

/-! ### Helper lemmas: the publish loop -/

theorem publishRun_err {ε : Type} (send : SlackMessage → Except ε Unit) :
    ∀ (msgs : List SlackMessage) (k : Nat) (sent : List Nat) (i : Nat) (e : ε),
      publishRun send k msgs = (sent, some (i, e)) →
      sent = List.range' k (i - k) ∧ k ≤ i ∧ i < k + msgs.length := by
  intro msgs
  induction msgs with
  | nil =>
    intro k sent i e h
    simp [publishRun] at h
  | cons m rest ih =>
    intro k sent i e h
    simp only [publishRun] at h
    cases hs : send m with
    | ok u =>
      rw [hs] at h
      rcases hpr : publishRun send (k + 1) rest with ⟨sent', res⟩
      rw [hpr] at h
      simp only [Prod.mk.injEq] at h
      obtain ⟨hsent, hres⟩ := h
      obtain ⟨h1, h2, h3⟩ := ih (k + 1) sent' i e (by rw [hpr, hres])
      refine ⟨?_, by omega, by simp [List.length_cons]; omega⟩
      rw [← hsent, h1]
      rw [show i - k = (i - (k + 1)) + 1 by omega, List.range'_succ]
    | error e' =>
      rw [hs] at h
      simp only [Prod.mk.injEq, Option.some.injEq] at h
      obtain ⟨hsent, hk, he⟩ := h
      subst hk
      refine ⟨?_, Nat.le_refl k, by simp [List.length_cons]⟩
      rw [← hsent, Nat.sub_self]
      rfl

theorem buildMessages_sectionTexts (silences : List Silence) (tp : Nat) :
    ∀ (chks : List (List Silence)) (k : Nat) (ms : List SlackMessage), 1 ≤ k →
      buildMessages silences tp k chks = some ms →
      ∃ ts, optMap silenceText chks.flatten = some ts ∧
        (ms.map sectionTexts).flatten = ts := by
  intro chks
  induction chks with
  | nil =>
    intro k ms hk h
    simp only [buildMessages, Option.some.injEq] at h
    subst h
    exact ⟨[], rfl, rfl⟩
  | cons c cs ih =>
    intro k ms hk h
    simp only [buildMessages] at h
    cases hm : messageForChunk silences tp k c with
    | none => rw [hm] at h; exact absurd h (by simp)
    | some m =>
      rw [hm] at h
      cases hms : buildMessages silences tp (k + 1) cs with
      | none => rw [hms] at h; exact absurd h (by simp)
      | some ms' =>
        rw [hms] at h
        simp only [Option.some.injEq] at h
        subst h
        obtain ⟨ts₁, hts₁, _⟩ := messageForChunk_inv silences tp k c m hm
        obtain ⟨ts₂, hts₂, hsec₂⟩ := ih (k + 1) ms' (by omega) hms
        have hsec₁ := sectionTexts_messageForChunk silences tp k c m ts₁ hm hts₁
        refine ⟨ts₁ ++ ts₂, ?_, ?_⟩
        · rw [show (c :: cs).flatten = c ++ cs.flatten from rfl]
          exact optMap_append silenceText c cs.flatten ts₁ ts₂ hts₁ hts₂
        · rw [List.map_cons, List.flatten_cons, hsec₁, hsec₂, if_neg (by omega)]
          simp

/-! ### Claim theorems -/

/-- Claim C1: whenever the report builder returns (no truncation panic), the
number of message batches is exactly `max 1 ⌈n / 23⌉` for an input of length
`n`; in particular the empty input yields exactly one batch. -/
theorem format_slack_messages_batch_count (silences : List Silence)
    (ms : List SlackMessage) (h : format_slack_messages silences = some ms) :
    ms.length =
      max 1 ((silences.length + (MAX_SILENCES_PER_MESSAGE - 1)) / MAX_SILENCES_PER_MESSAGE) := by
  have h' : buildMessages silences (fmChunks silences).length 0 (fmChunks silences) = some ms := h
  rw [buildMessages_length silences (fmChunks silences).length (fmChunks silences) 0 ms h']
  exact fmChunks_length silences

/-- Witness for C1 at the empty input: one batch is produced. -/
theorem format_slack_messages_batch_count_witness :
    format_slack_messages [] = some [emptyReportMessage] ∧
    [emptyReportMessage].length =
      max 1 ((List.length ([] : List Silence) + (MAX_SILENCES_PER_MESSAGE - 1)) /
        MAX_SILENCES_PER_MESSAGE) :=
  ⟨rfl, format_slack_messages_batch_count [] [emptyReportMessage] rfl⟩

/-- Claim C10: `format_timestamp` transforms every input string, well formed
or not: the result is the prefix of the input before its first `.`, with
every `T` replaced by a space and every `Z` removed; consequently the result
never contains `T`, `Z` or `.`. -/
theorem format_timestamp_characterization (s : String) :
    format_timestamp s =
      String.mk (((s.data.takeWhile (fun c => c ≠ '.')).map
        (fun c => if c = 'T' then ' ' else c)).filter (fun c => c ≠ 'Z')) ∧
    'T' ∉ (format_timestamp s).data ∧ 'Z' ∉ (format_timestamp s).data ∧
      '.' ∉ (format_timestamp s).data := by
  constructor
  · unfold format_timestamp
    rw [formatTimestampChars_eq]
  · exact formatTimestampChars_no_specials s.data

/-- Refutes claim C5's unchanged-input clause: `"not.a.timestamp"` is not of
the timestamp shape, yet `format_timestamp` does not return it unchanged. -/
theorem format_timestamp_changes_nontimestamp :
    format_timestamp "not.a.timestamp" = "not" ∧
    ("not" : String) ≠ "not.a.timestamp" := by
  exact ⟨rfl, by decide⟩

/-- Claim C5 (amended): on inputs of the shape
`YYYY-MM-DDTHH:MM:SS[.fraction]Z` the formatter yields
`YYYY-MM-DD HH:MM:SS`; every other input is transformed by the same
character rules (prefix before the first `.`, `T` to space, `Z` dropped)
rather than returned unchanged. -/
theorem format_timestamp_wellformed_shape :
    (∀ date time frac : String,
      date.length = 10 → (∀ c ∈ date.data, c.isDigit ∨ c = '-') →
      time.length = 8 → (∀ c ∈ time.data, c.isDigit ∨ c = ':') →
      (frac = "" ∨ ∃ fs : List Char, frac.data = '.' :: fs ∧ ∀ c ∈ fs, c.isDigit) →
      format_timestamp (date ++ "T" ++ time ++ frac ++ "Z") = date ++ " " ++ time) ∧
    (∀ s : String, format_timestamp s =
      String.mk (((s.data.takeWhile (fun c => c ≠ '.')).map
        (fun c => if c = 'T' then ' ' else c)).filter (fun c => c ≠ 'Z'))) := by
  constructor
  · intro date time frac _ hd _ ht hf
    apply stringExt
    have hX : (date ++ "T" ++ time ++ frac ++ "Z").data =
        date.data ++ 'T' :: (time.data ++ (frac.data ++ ['Z'])) := by
      rw [String.data_append, String.data_append, String.data_append, String.data_append]
      rw [show "T".data = ['T'] from rfl, show "Z".data = ['Z'] from rfl]
      simp [List.append_assoc]
    have hY : (date ++ " " ++ time).data = date.data ++ ' ' :: time.data := by
      rw [String.data_append, String.data_append]
      rw [show " ".data = [' '] from rfl]
      simp [List.append_assoc]
    show formatTimestampChars (date ++ "T" ++ time ++ frac ++ "Z").data = _
    rw [hX, hY]
    apply formatTimestampChars_wellformed date.data time.data frac.data hd ht
    rcases hf with rfl | ⟨fs, hfs, _⟩
    · exact Or.inl rfl
    · exact Or.inr ⟨fs, hfs⟩
  · intro s
    unfold format_timestamp
    rw [formatTimestampChars_eq]

/-- Witness for C5 (amended) at a concrete fractional timestamp. -/
theorem format_timestamp_wellformed_witness :
    format_timestamp ("2024-01-01" ++ "T" ++ "00:00:00" ++ ".123" ++ "Z") =
      "2024-01-01" ++ " " ++ "00:00:00" :=
  format_timestamp_wellformed_shape.1 "2024-01-01" "00:00:00" ".123" rfl (by decide)
    rfl (by decide) (Or.inr ⟨['1', '2', '3'], rfl, by decide⟩)

set_option maxRecDepth 8192 in
/-- Claim C4 (code bug): the comment guard and slice are byte-based, not
character-based; a 100-character, 101-byte comment (99 ASCII characters and
one two-byte character) passes the guard and the slice at byte 100 falls
inside a character, so the renderer and the whole builder panic instead of
truncating on a character boundary. -/
theorem comment_truncation_panics :
    utf8Len panickingComment.data = 101 ∧
    commentPreview panickingComment = none ∧
    format_slack_messages [panicSilence] = none := by
  refine ⟨by decide, by decide, by decide⟩

/-- Claim C7 (code bug): the sentinel test of the renderer is as claimed
(`"-"` yields no comment line), but a comment of exactly 100 characters is
not rendered unmodified: 100 two-byte characters make the byte-based guard
fire (200 > 100) and byte-truncation keeps only 50 characters plus the
ellipsis marker. -/
theorem comment_hundred_chars_truncated :
    hundredWideComment.data.length = 100 ∧
    commentPreview hundredWideComment = some (String.mk (List.replicate 50 'é') ++ "...") ∧
    String.mk (List.replicate 50 'é') ++ "..." ≠ hundredWideComment ∧
    silenceText dashCommentSilence = some (silenceTextBase dashCommentSilence) := by
  refine ⟨by decide, by decide, by decide, rfl⟩

/-- Claim C9: the driver's publish loop sends batches one at a time in
order; if publishing batch `i` fails, exactly the batches `0..i-1` were
published and no batch after `i` is attempted or published. -/
theorem publish_aborts_after_failure {ε : Type} (send : SlackMessage → Except ε Unit)
    (msgs : List SlackMessage) (sent : List Nat) (i : Nat) (e : ε)
    (h : publishRun send 0 msgs = (sent, some (i, e))) :
    sent = List.range i ∧ i < msgs.length ∧ ∀ j, i ≤ j → j ∉ sent := by
  obtain ⟨h1, _, h3⟩ := publishRun_err send msgs 0 sent i e h
  rw [Nat.sub_zero] at h1
  refine ⟨by rw [h1, List.range_eq_range'], by omega, ?_⟩
  intro j hj hmem
  rw [h1, ← List.range_eq_range'] at hmem
  have := List.mem_range.mp hmem
  omega

/-- Witness for C9: three batches, the second fails; only batch 0 is
published and batch 2 is never published. -/
theorem publish_aborts_after_failure_witness :
    publishRun sampleSend 0 sampleBatches = ([0], some (1, 7)) ∧
    [0] = List.range 1 ∧ (2 : Nat) ∉ [0] := by
  have h : publishRun sampleSend 0 sampleBatches = ([0], some (1, 7)) := rfl
  obtain ⟨h1, _, h3⟩ := publish_aborts_after_failure sampleSend sampleBatches [0] 1 7 h
  exact ⟨h, h1, h3 2 (by omega)⟩

/-- Claim C2: whenever the builder returns, the Section texts of all
batches concatenated in batch order are exactly the summary line followed
by one rendered Section per input record, in input order — no record is
dropped, duplicated or reordered. -/
theorem sections_preserve_records (silences : List Silence) (ms : List SlackMessage)
    (h : format_slack_messages silences = some ms) :
    ∃ ts, optMap silenceText silences = some ts ∧ ts.length = silences.length ∧
      (ms.map sectionTexts).flatten = summaryText silences :: ts := by
  have h' : buildMessages silences (fmChunks silences).length 0 (fmChunks silences) = some ms := h
  have hflat := fmChunks_flatten silences
  rcases hch : fmChunks silences with _ | ⟨c₀, cr⟩
  · exact absurd hch (fmChunks_ne_nil silences)
  rw [hch] at h' hflat
  simp only [buildMessages] at h'
  cases hm : messageForChunk silences (c₀ :: cr).length 0 c₀ with
  | none => rw [hm] at h'; exact absurd h' (by simp)
  | some m =>
    rw [hm] at h'
    cases hms : buildMessages silences (c₀ :: cr).length 1 cr with
    | none => rw [hms] at h'; exact absurd h' (by simp)
    | some ms' =>
      rw [hms] at h'
      simp only [Option.some.injEq] at h'
      subst h'
      obtain ⟨ts₀, hts₀, _⟩ := messageForChunk_inv silences (c₀ :: cr).length 0 c₀ m hm
      obtain ⟨ts₂, hts₂, hsec₂⟩ :=
        buildMessages_sectionTexts silences (c₀ :: cr).length cr 1 ms' (Nat.le_refl 1) hms
      have hsec₀ := sectionTexts_messageForChunk silences (c₀ :: cr).length 0 c₀ m ts₀ hm hts₀
      have happ : optMap silenceText (c₀ ++ cr.flatten) = some (ts₀ ++ ts₂) :=
        optMap_append silenceText c₀ cr.flatten ts₀ ts₂ hts₀ hts₂
      rw [show (c₀ :: cr).flatten = c₀ ++ cr.flatten from rfl] at hflat
      rw [hflat] at happ
      refine ⟨ts₀ ++ ts₂, happ, ?_, ?_⟩
      · rw [optMap_length silenceText silences (ts₀ ++ ts₂) happ]
      · rw [List.map_cons, List.flatten_cons, hsec₀, hsec₂, if_pos rfl]
        simp

/-- Witness for C2 at the empty input: the only Section text is the
summary line and the record list is empty. -/
theorem sections_preserve_records_witness :
    format_slack_messages [] = some [emptyReportMessage] ∧
    ([emptyReportMessage].map sectionTexts).flatten = [summaryText []] := by
  refine ⟨rfl, ?_⟩
  obtain ⟨ts, hts, _, hflat⟩ := sections_preserve_records [] [emptyReportMessage] rfl
  simp only [optMap, Option.some.injEq] at hts
  rw [← hts] at hflat
  exact hflat

/-- Refutes claim C3's literal summary text: for the empty input the first
batch's only Section block carries `*Total:* 0 | *Active:* 0 | *Pending:* 0
| *Expired:* 0` (mrkdwn bold markers) and no Section block of the batch
contains the plain line `Total: 0 | Active: 0 | Pending: 0 | Expired: 0`. -/
theorem summary_line_plain_literal_refuted :
    format_slack_messages [] = some [emptyReportMessage] ∧
    claimSummaryAbsent emptyReportMessage = true := by
  exact ⟨rfl, by decide⟩

/-- Claim C3 (amended): the first batch's second block is a Section whose
text is `*Total:* <total> | *Active:* <active> | *Pending:* <pending> |
*Expired:* <expired>` — the claimed literal with Slack mrkdwn bold markers
around the labels — where the counts are exact-string-match tallies; the
three counts sum to at most the total, with equality exactly when every
state is one of the three known literals. -/
theorem summary_block_counts (silences : List Silence) (ms : List SlackMessage)
    (h : format_slack_messages silences = some ms) :
    ∃ m₀ rest, ms = m₀ :: rest ∧
      m₀.blocks[1]? = some (SlackBlock.Section ⟨"mrkdwn",
        "*Total:* " ++ toString silences.length ++
        " | *Active:* " ++ toString (activeCount silences) ++
        " | *Pending:* " ++ toString (pendingCount silences) ++
        " | *Expired:* " ++ toString (expiredCount silences)⟩) ∧
      activeCount silences + pendingCount silences + expiredCount silences ≤
        silences.length ∧
      (activeCount silences + pendingCount silences + expiredCount silences =
          silences.length ↔
        ∀ s ∈ silences, s.status.state = "active" ∨ s.status.state = "pending" ∨
          s.status.state = "expired") := by
  have h' : buildMessages silences (fmChunks silences).length 0 (fmChunks silences) = some ms := h
  rcases hch : fmChunks silences with _ | ⟨c₀, cr⟩
  · exact absurd hch (fmChunks_ne_nil silences)
  rw [hch] at h'
  simp only [buildMessages] at h'
  cases hm : messageForChunk silences (c₀ :: cr).length 0 c₀ with
  | none => rw [hm] at h'; exact absurd h' (by simp)
  | some m =>
    rw [hm] at h'
    cases hms : buildMessages silences (c₀ :: cr).length 1 cr with
    | none => rw [hms] at h'; exact absurd h' (by simp)
    | some ms' =>
      rw [hms] at h'
      simp only [Option.some.injEq] at h'
      subst h'
      obtain ⟨ts₀, _, hblocks⟩ := messageForChunk_inv silences (c₀ :: cr).length 0 c₀ m hm
      rw [if_pos rfl] at hblocks
      have hsum : summaryText silences =
          "*Total:* " ++ toString silences.length ++
          " | *Active:* " ++ toString (activeCount silences) ++
          " | *Pending:* " ++ toString (pendingCount silences) ++
          " | *Expired:* " ++ toString (expiredCount silences) := by
        unfold summaryText
        rw [stateTally_eq]
      refine ⟨m, ms', rfl, ?_, (counts_le_and_iff silences).1, (counts_le_and_iff silences).2⟩
      rw [hblocks, ← hsum]
      rfl

/-- Witness for C3 (amended) at the empty input. -/
theorem summary_block_counts_witness :
    format_slack_messages [] = some [emptyReportMessage] ∧
    emptyReportMessage.blocks[1]? = some (SlackBlock.Section ⟨"mrkdwn",
      "*Total:* " ++ toString (List.length ([] : List Silence)) ++
      " | *Active:* " ++ toString (activeCount []) ++
      " | *Pending:* " ++ toString (pendingCount []) ++
      " | *Expired:* " ++ toString (expiredCount [])⟩) := by
  refine ⟨rfl, ?_⟩
  obtain ⟨m₀, rest, hms, hblk, _, _⟩ := summary_block_counts [] [emptyReportMessage] rfl
  injection hms with h1 h2
  rw [h1]
  exact hblk

/-- Claim C6: whenever the builder returns, every batch has exactly one
Header block and at least one Divider block, its block count stays within
`BLOCK_LIMIT = 50` (at most 23 records, 3 reserved blocks, 2 per record),
and the summary Section block appears in the first batch and in no other. -/
theorem batch_block_invariants (silences : List Silence) (ms : List SlackMessage)
    (h : format_slack_messages silences = some ms) :
    (∀ m ∈ ms, m.blocks.countP isHeaderBlock = 1 ∧
      1 ≤ m.blocks.countP isDividerBlock ∧ m.blocks.length ≤ BLOCK_LIMIT) ∧
    ∃ m₀ rest, ms = m₀ :: rest ∧
      SlackBlock.Section ⟨"mrkdwn", summaryText silences⟩ ∈ m₀.blocks ∧
      ∀ m ∈ rest, SlackBlock.Section ⟨"mrkdwn", summaryText silences⟩ ∉ m.blocks := by
  have h' : buildMessages silences (fmChunks silences).length 0 (fmChunks silences) = some ms := h
  constructor
  · intro m hmem
    obtain ⟨i, c, _, hc, hmc⟩ :=
      buildMessages_mem silences (fmChunks silences).length (fmChunks silences) 0 ms h' m hmem
    obtain ⟨ts, hts, hblocks⟩ :=
      messageForChunk_inv silences (fmChunks silences).length i c m hmc
    have hlen : ts.length = c.length := optMap_length silenceText c ts hts
    have hcle : c.length ≤ MAX_SILENCES_PER_MESSAGE := fmChunks_mem_length silences c hc
    have hflatlen := recordFlatten_length ts
    have hflathdr := recordFlatten_countP_header ts
    refine ⟨?_, ?_, ?_⟩
    · rw [hblocks]
      by_cases hi : i = 0
      · rw [if_pos hi]
        simp only [List.singleton_append, List.countP_cons, hflathdr]
        simp [isHeaderBlock]
      · rw [if_neg hi]
        simp only [List.nil_append, List.countP_cons, hflathdr]
        simp [isHeaderBlock]
    · rw [hblocks]
      by_cases hi : i = 0
      · rw [if_pos hi]
        simp only [List.singleton_append, List.countP_cons]
        simp [isDividerBlock]
      · rw [if_neg hi]
        simp only [List.nil_append, List.countP_cons]
        simp [isDividerBlock]
    · rw [hblocks]
      by_cases hi : i = 0
      · rw [if_pos hi]
        simp only [List.singleton_append, List.length_cons, hflatlen]
        unfold BLOCK_LIMIT
        unfold MAX_SILENCES_PER_MESSAGE at hcle
        omega
      · rw [if_neg hi]
        simp only [List.nil_append, List.length_cons, hflatlen]
        unfold BLOCK_LIMIT
        unfold MAX_SILENCES_PER_MESSAGE at hcle
        omega
  · rcases hch : fmChunks silences with _ | ⟨c₀, cr⟩
    · exact absurd hch (fmChunks_ne_nil silences)
    rw [hch] at h'
    simp only [buildMessages] at h'
    cases hm : messageForChunk silences (c₀ :: cr).length 0 c₀ with
    | none => rw [hm] at h'; exact absurd h' (by simp)
    | some m =>
      rw [hm] at h'
      cases hms : buildMessages silences (c₀ :: cr).length 1 cr with
      | none => rw [hms] at h'; exact absurd h' (by simp)
      | some ms' =>
        rw [hms] at h'
        simp only [Option.some.injEq] at h'
        subst h'
        obtain ⟨ts₀, _, hblocks₀⟩ :=
          messageForChunk_inv silences (c₀ :: cr).length 0 c₀ m hm
        rw [if_pos rfl] at hblocks₀
        refine ⟨m, ms', rfl, ?_, ?_⟩
        · rw [hblocks₀]
          simp
        · intro m' hm' habs
          obtain ⟨i, c, hi1, _, hmc⟩ :=
            buildMessages_mem silences (c₀ :: cr).length cr 1 ms' hms m' hm'
          obtain ⟨ts, hts, hblocks⟩ :=
            messageForChunk_inv silences (c₀ :: cr).length i c m' hmc
          rw [if_neg (by omega)] at hblocks
          rw [hblocks] at habs
          simp only [List.nil_append, List.mem_cons] at habs
          rcases habs with habs | habs | habs
          · exact absurd habs (by simp)
          · exact absurd habs (by simp)
          · rcases recordFlatten_mem ts _ habs with ⟨t, htmem, heq⟩ | heq
            · obtain ⟨s', _, hs'⟩ := optMap_mem silenceText c ts hts t htmem
              have : t = summaryText silences := by
                have := heq
                simp only [SlackBlock.Section.injEq, SlackText.mk.injEq] at this
                exact this.2.symm
              exact record_ne_summary s' silences t hs' this
            · exact absurd heq (by simp)

/-- Witness for C6 at the empty input. -/
theorem batch_block_invariants_witness :
    format_slack_messages [] = some [emptyReportMessage] ∧
    emptyReportMessage.blocks.countP isHeaderBlock = 1 ∧
    1 ≤ emptyReportMessage.blocks.countP isDividerBlock ∧
    emptyReportMessage.blocks.length ≤ BLOCK_LIMIT ∧
    SlackBlock.Section ⟨"mrkdwn", summaryText []⟩ ∈ emptyReportMessage.blocks := by
  refine ⟨rfl, ?_⟩
  obtain ⟨hall, m₀, rest, hms, hmem, _⟩ := batch_block_invariants [] [emptyReportMessage] rfl
  injection hms with h1 h2
  obtain ⟨c1, c2, c3⟩ := hall emptyReportMessage (List.mem_cons_self _ _)
  rw [← h1] at hmem
  exact ⟨c1, c2, c3, hmem⟩

/-- Claim C8: whenever the builder returns, every batch starts with a
Header block whose text is the plain report title when there is exactly one
batch, and otherwise the title suffixed with `(Part i/N)` for the 1-based
batch index `i` and the total batch count `N`. -/
theorem header_part_numbering (silences : List Silence) (ms : List SlackMessage)
    (h : format_slack_messages silences = some ms)
    (j : Nat) (hj : j < ms.length) :
    ∃ rest, (ms.get ⟨j, hj⟩).blocks =
      SlackBlock.Header ⟨"plain_text",
        (if ms.length = 1 then "Alertmanager Silences Report"
         else "Alertmanager Silences Report (Part " ++ toString (j + 1) ++ "/" ++
           toString ms.length ++ ")")⟩ :: rest := by
  have h' : buildMessages silences (fmChunks silences).length 0 (fmChunks silences) = some ms := h
  have hlen := buildMessages_length silences (fmChunks silences).length (fmChunks silences) 0 ms h'
  have hj' : j < (fmChunks silences).length := by rw [← hlen]; exact hj
  have hbm := buildMessages_get silences (fmChunks silences).length (fmChunks silences) 0 ms h' j hj' hj
  rw [Nat.zero_add] at hbm
  obtain ⟨ts, _, hblocks⟩ :=
    messageForChunk_inv silences (fmChunks silences).length j _ _ hbm
  have htext : headerText (fmChunks silences).length j =
      (if ms.length = 1 then "Alertmanager Silences Report"
       else "Alertmanager Silences Report (Part " ++ toString (j + 1) ++ "/" ++
         toString ms.length ++ ")") := by
    unfold headerText
    by_cases h1 : ms.length = 1
    · have htp : (fmChunks silences).length = 1 := by rw [← hlen]; exact h1
      rw [htp, if_pos h1]
      rfl
    · have hpos : 0 < (fmChunks silences).length :=
        List.length_pos.mpr (fmChunks_ne_nil silences)
      have hne : (fmChunks silences).length ≠ 1 := by rw [← hlen]; exact h1
      rw [if_pos (by omega), if_neg h1, hlen]
  exact ⟨_, by rw [hblocks, htext]⟩

/-- Witness for C8 at the empty input: the single batch carries the plain
report title. -/
theorem header_part_numbering_witness :
    format_slack_messages [] = some [emptyReportMessage] ∧
    emptyReportMessage.blocks.head? =
      some (SlackBlock.Header ⟨"plain_text", "Alertmanager Silences Report"⟩) := by
  refine ⟨rfl, ?_⟩
  obtain ⟨rest, hrest⟩ := header_part_numbering [] [emptyReportMessage] rfl 0 (by decide)
  have hred : (emptyReportMessage.blocks : List SlackBlock) =
      SlackBlock.Header ⟨"plain_text",
        (if ([emptyReportMessage] : List SlackMessage).length = 1
         then "Alertmanager Silences Report"
         else "Alertmanager Silences Report (Part " ++ toString (0 + 1) ++ "/" ++
           toString ([emptyReportMessage] : List SlackMessage).length ++ ")")⟩ :: rest := hrest
  rw [hred]
  rfl

end SilencesReporter
